import Mathlib

/-!
Verification of the colourizer script of the JupiterPlot repository
(src/colourizer.py).  The script reads a karyotype file line by line,
splits each line on runs of whitespace, looks up field index 3 in the
list of names loaded from the good-contigs file (each of those lines
passed through Python rstrip), and writes the line to the output file,
with every occurrence of the substring vvlgrey replaced by red when the
lookup succeeds.

Strings are modelled as lists of characters, files as lists of lines
(each line carries its own terminator, as Python file iteration yields
them).  Python indexing that can raise IndexError is modelled with
Option, and the whole run is modelled by a small result type that also
records failure to open one of the three files.
-/

/-- Strings are modelled as lists of characters. -/
abbrev Str := List Char

/-- The characters treated as whitespace by Python str.split() and
str.rstrip() with no argument (the Py_UNICODE_ISSPACE class). -/
def pyWhitespace : List Char :=
  ['\t', '\n', '\x0b', '\x0c', '\r', '\x1c', '\x1d', '\x1e', '\x1f', ' ',
   '\x85', '\xa0', '\u1680', '\u2000', '\u2001', '\u2002', '\u2003', '\u2004',
   '\u2005', '\u2006', '\u2007', '\u2008', '\u2009', '\u200a', '\u2028',
   '\u2029', '\u202f', '\u205f', '\u3000']

/-- Whether a character is Python whitespace. -/
def isPySpace (c : Char) : Bool := pyWhitespace.contains c

/-- Python s.rstrip() with no argument: remove all trailing whitespace. -/
def rstrip (s : Str) : Str := (s.reverse.dropWhile isPySpace).reverse

/-- Worker for Python s.split() with no argument.  The second argument
accumulates the characters of the field currently being read, in
reverse order. -/
def splitAux : Str → Str → List Str
  | [], acc => if acc.isEmpty then [] else [acc.reverse]
  | c :: rest, acc =>
    if isPySpace c then
      if acc.isEmpty then splitAux rest [] else acc.reverse :: splitAux rest []
    else
      splitAux rest (c :: acc)

/-- Python s.split() with no argument: split on runs of whitespace,
producing no empty fields. -/
def pySplit (s : Str) : List Str := splitAux s []

/-- Worker for Python s.replace(old, new) with a nonempty pattern
p :: ps: scan left to right, replacing non-overlapping occurrences
greedily.  The Nat argument bounds the number of scanning steps; a bound
of at least the length of the scanned string is always sufficient, since
every step consumes at least one character, and the wrapper pyReplace
passes exactly that bound. -/
def replaceGo (p : Char) (ps rep : Str) : Nat → Str → Str
  | _, [] => []
  | 0, c :: rest => c :: rest
  | fuel + 1, c :: rest =>
    if (p :: ps).isPrefixOf (c :: rest) then
      rep ++ replaceGo p ps rep fuel (rest.drop ps.length)
    else
      c :: replaceGo p ps rep fuel rest

/-- Python s.replace(old, new): replace every (non-overlapping, leftmost
first) occurrence of old by new.  An empty pattern inserts new before
every character and at the end, as in Python. -/
def pyReplace (pat rep s : Str) : Str :=
  match pat with
  | [] => rep ++ s.flatMap (fun c => c :: rep)
  | p :: ps => replaceGo p ps rep s.length s

/-- The colour token that gets replaced, from line 6 of colourizer.py. -/
def vvlgrey : Str := ['v', 'v', 'l', 'g', 'r', 'e', 'y']

/-- The replacement colour token, from line 6 of colourizer.py. -/
def red : Str := ['r', 'e', 'd']

/-- Line 2 of colourizer.py: tigs = [l.rstrip() for l in fin2]. -/
def loadTigs (goodContigs : List Str) : List Str := goodContigs.map rstrip

/-- Lines 4 to 8 of colourizer.py, for one iteration of the loop:
parts = line.rstrip().split(); the indexing parts[3] raises IndexError
when there are fewer than four fields, modelled as none; otherwise the
line written to the output file is returned. -/
def processLine (tigs : List Str) (line : Str) : Option Str :=
  match (pySplit (rstrip line))[3]? with
  | none => none
  | some f3 => if f3 ∈ tigs then some (pyReplace vvlgrey red line) else some line

/-- The line processLine writes when it does not raise: total companion
of processLine, used to state what a successfully written line is. -/
def transformLine (tigs : List Str) (line : Str) : Str :=
  match (pySplit (rstrip line))[3]? with
  | none => line
  | some f3 => if f3 ∈ tigs then pyReplace vvlgrey red line else line

/-- The loop of lines 3 to 8 of colourizer.py over the whole input file:
returns the list of lines written to the output file, and whether the
run was aborted by an IndexError (true means aborted; the lines written
before the abort are still returned, since the with statement closes and
flushes the output file when the exception propagates). -/
def processFile (tigs : List Str) : List Str → List Str × Bool
  | [] => ([], false)
  | line :: rest =>
    match processLine tigs line with
    | none => ([], true)
    | some out =>
      let r := processFile tigs rest
      (out :: r.1, r.2)

/-- Outcome of one run of the script: failure to open one of the three
files, abort by IndexError (carrying the lines already written to the
output file), or successful traversal of the whole input. -/
inductive RunResult where
  | openError : RunResult
  | indexError (written : List Str) : RunResult
  | ok (written : List Str) : RunResult
deriving DecidableEq

/-- Line 1 of colourizer.py together with the loop: the two input files
are none when they cannot be opened for reading, and outWritable is
false when the output file cannot be opened for writing; open raises in
those cases, before any line is processed. -/
def runProgram (karyo goodContigs : Option (List Str)) (outWritable : Bool) :
    RunResult :=
  match karyo, goodContigs, outWritable with
  | some ks, some gs, true =>
    let r := processFile (loadTigs gs) ks
    if r.2 then RunResult.indexError r.1 else RunResult.ok r.1
  | _, _, _ => RunResult.openError

/-- Whether pat occurs as a contiguous substring of s. -/
def containsSub (pat s : Str) : Bool :=
  match s with
  | [] => pat.isEmpty
  | c :: rest => pat.isPrefixOf (c :: rest) || containsSub pat rest

/-- Number of fields Python s.split() produces, computed in one pass;
the Bool records whether a field is in progress when the scan starts. -/
def countAux : Str → Bool → Nat
  | [], b => if b then 1 else 0
  | c :: rest, b =>
    if isPySpace c then (if b then 1 else 0) + countAux rest false
    else countAux rest true

/-- Modelled from the spec words of C3 and C6, for comparison with the
behaviour of the code: strip only one trailing newline character,
leaving every other character (including other trailing whitespace) in
place. -/
def specStripTrailingNewline (s : Str) : Str :=
  if s.getLast? = some '\n' then s.dropLast else s

/-- Example karyotype line, fields a b c T vvlgrey, newline-terminated. -/
def exLine : Str :=
  ['a', ' ', 'b', ' ', 'c', ' ', 'T', ' ', 'v', 'v', 'l', 'g', 'r', 'e',
   'y', '\n']

/-- Example karyotype line with only two fields. -/
def exLineShort : Str := ['a', ' ', 'b', '\n']

/-- Example good-contigs line whose content T is followed by a trailing
space and then the newline. -/
def exContigLine : Str := ['T', ' ', '\n']

/-- Field index 3 of exLine. -/
def exF3 : Str := ['T']

/-- exLine after the colour replacement. -/
def exLineRed : Str :=
  ['a', ' ', 'b', ' ', 'c', ' ', 'T', ' ', 'r', 'e', 'd', '\n']

/-- Example good-contigs line with content T and no extra whitespace. -/
def exContigLineNL : Str := ['T', '\n']

/-- A string all of whose characters are whitespace splits into no
fields beyond the field already accumulated. -/
theorem splitAux_all_space (ws : Str) :
    (∀ c ∈ ws, isPySpace c = true) →
    ∀ acc : Str, splitAux ws acc = if acc.isEmpty then [] else [acc.reverse] := by
  induction ws with
  | nil => intro _ _; rfl
  | cons c ws ih =>
    intro hws acc
    have hc : isPySpace c = true := hws c (by simp)
    have h2 := ih (fun x hx => hws x (by simp [hx]))
    have h0 : splitAux ws [] = [] := by simpa using h2 []
    by_cases ha : acc.isEmpty
    · simp [splitAux, hc, ha, h0]
    · simp [splitAux, hc, ha, h0]

/-- Appending trailing whitespace to a string does not change how it
splits. -/
theorem splitAux_append_space (ws : Str) (hws : ∀ c ∈ ws, isPySpace c = true) :
    ∀ t acc : Str, splitAux (t ++ ws) acc = splitAux t acc := by
  intro t
  induction t with
  | nil =>
    intro acc
    simpa [splitAux] using splitAux_all_space ws hws acc
  | cons c t ih =>
    intro acc
    by_cases hc : isPySpace c = true
    · simp [splitAux, hc, ih]
    · simp [splitAux, hc, ih]

/-- A string is its rstrip followed by the stripped whitespace. -/
theorem rstrip_append_spaces (s : Str) :
    rstrip s ++ (s.reverse.takeWhile isPySpace).reverse = s := by
  have h : (s.reverse.takeWhile isPySpace ++ s.reverse.dropWhile isPySpace).reverse
      = s.reverse.reverse := by
    rw [List.takeWhile_append_dropWhile]
  rw [List.reverse_append, List.reverse_reverse] at h
  simpa [rstrip] using h

/-- Python s.rstrip().split() equals s.split(): split already ignores
trailing whitespace. -/
theorem pySplit_rstrip (s : Str) : pySplit (rstrip s) = pySplit s := by
  have hws : ∀ c ∈ (s.reverse.takeWhile isPySpace).reverse, isPySpace c = true := by
    intro c hc
    rw [List.mem_reverse] at hc
    exact List.mem_takeWhile_imp hc
  calc pySplit (rstrip s) = splitAux (rstrip s) [] := rfl
    _ = splitAux (rstrip s ++ (s.reverse.takeWhile isPySpace).reverse) [] :=
        (splitAux_append_space _ hws _ _).symm
    _ = pySplit s := by rw [rstrip_append_spaces]; rfl

/-- Every field splitAux emits is nonempty. -/
theorem ne_nil_of_mem_splitAux (s : Str) :
    ∀ acc f : Str, f ∈ splitAux s acc → f ≠ [] := by
  induction s with
  | nil =>
    intro acc f hf
    by_cases ha : acc.isEmpty
    · simp [splitAux, ha] at hf
    · simp only [splitAux, ha, if_false, Bool.false_eq_true, List.mem_singleton] at hf
      subst hf
      simp only [ne_eq, List.reverse_eq_nil_iff]
      intro h
      subst h
      simp at ha
  | cons c rest ih =>
    intro acc f hf
    simp only [splitAux] at hf
    by_cases hc : isPySpace c = true
    · rw [if_pos hc] at hf
      by_cases ha : acc.isEmpty
      · rw [if_pos ha] at hf
        exact ih [] f hf
      · rw [if_neg ha] at hf
        rcases List.mem_cons.1 hf with h | h
        · subst h
          simp only [ne_eq, List.reverse_eq_nil_iff]
          intro h
          subst h
          simp at ha
        · exact ih [] f h
    · rw [if_neg hc] at hf
      exact ih (c :: acc) f hf

/-- Python str.split() never produces an empty field. -/
theorem pySplit_ne_nil (s f : Str) (hf : f ∈ pySplit s) : f ≠ [] :=
  ne_nil_of_mem_splitAux s [] f hf

/-- The number of fields splitAux emits, computed by countAux. -/
theorem length_splitAux (s : Str) :
    ∀ acc : Str, (splitAux s acc).length = countAux s (!acc.isEmpty) := by
  induction s with
  | nil =>
    intro acc
    by_cases ha : acc.isEmpty
    · simp [splitAux, countAux, ha]
    · simp [splitAux, countAux, ha]
  | cons c rest ih =>
    intro acc
    by_cases hc : isPySpace c = true
    · by_cases ha : acc.isEmpty
      · simp [splitAux, countAux, hc, ha, ih []]
      · simp [splitAux, countAux, hc, ha, ih []]
        omega
    · simp [splitAux, countAux, hc, ih (c :: acc)]

/-- The number of fields of Python str.split(). -/
theorem length_pySplit (s : Str) : (pySplit s).length = countAux s false := by
  simpa using length_splitAux s []

/-- Only the empty list is a list prefix of the empty list. -/
theorem isPrefixOf_nil_iff (p : Str) : p.isPrefixOf ([] : Str) = true ↔ p = [] := by
  cases p <;> simp [List.isPrefixOf]

/-- A list prefix decomposes its host into the pattern and a drop. -/
theorem append_drop_of_isPrefixOf :
    ∀ p s : Str, p.isPrefixOf s = true → p ++ s.drop p.length = s
  | [], s, _ => by simp
  | a :: p, [], h => by simp [List.isPrefixOf] at h
  | a :: p, b :: s, h => by
    simp only [List.isPrefixOf, Bool.and_eq_true, beq_iff_eq] at h
    obtain ⟨rfl, h2⟩ := h
    simp only [List.length_cons, List.drop_succ_cons, List.cons_append, List.cons.injEq,
      true_and]
    exact append_drop_of_isPrefixOf p s h2

/-- processLine raises exactly on lines with fewer than four fields. -/
theorem processLine_none_iff (tigs : List Str) (line : Str) :
    processLine tigs line = none ↔ (pySplit (rstrip line)).length < 4 := by
  rcases h3 : (pySplit (rstrip line))[3]? with _ | f3
  · rw [List.getElem?_eq_none_iff] at h3
    simp only [processLine]
    rw [List.getElem?_eq_none_iff.2 h3]
    simp
    omega
  · have hlen : 3 < (pySplit (rstrip line)).length := by
      by_contra hcon
      rw [not_lt, ← List.getElem?_eq_none_iff] at hcon
      rw [hcon] at h3
      exact Option.noConfusion h3
    simp only [processLine, h3]
    by_cases hm : f3 ∈ tigs
    · simp [hm]
      omega
    · simp [hm]
      omega

/-- On a line with at least four fields, processLine writes the line
transformLine describes. -/
theorem processLine_eq_some (tigs : List Str) (line : Str)
    (h : 4 ≤ (pySplit (rstrip line)).length) :
    processLine tigs line = some (transformLine tigs line) := by
  rcases h3 : (pySplit (rstrip line))[3]? with _ | f3
  · rw [List.getElem?_eq_none_iff] at h3
    omega
  · simp only [processLine, transformLine, h3]
    by_cases hm : f3 ∈ tigs
    · simp [hm]
    · simp [hm]

/-- Each written line is the input line or its vvlgrey-to-red rewrite. -/
theorem transformLine_cases (tigs : List Str) (l : Str) :
    transformLine tigs l = l ∨ transformLine tigs l = pyReplace vvlgrey red l := by
  rcases h3 : (pySplit (rstrip l))[3]? with _ | f3
  · simp [transformLine, h3]
  · by_cases hm : f3 ∈ tigs
    · simp [transformLine, h3, hm]
    · simp [transformLine, h3, hm]

/-- On an input whose lines all have at least four fields, the loop maps
transformLine over the input and does not abort. -/
theorem processFile_of_all_good (tigs : List Str) :
    ∀ input : List Str, (∀ l ∈ input, 4 ≤ (pySplit (rstrip l)).length) →
      processFile tigs input = (input.map (transformLine tigs), false) := by
  intro input
  induction input with
  | nil => intro _; rfl
  | cons l rest ih =>
    intro h
    have hl := processLine_eq_some tigs l (h l (by simp))
    have hr := ih (fun x hx => h x (by simp [hx]))
    simp [processFile, hl, hr]

/-- The loop aborts when some input line has fewer than four fields. -/
theorem processFile_err_of_bad (tigs : List Str) :
    ∀ input : List Str, (∃ l ∈ input, (pySplit (rstrip l)).length < 4) →
      (processFile tigs input).2 = true := by
  intro input
  induction input with
  | nil => rintro ⟨l, hl, _⟩; simp at hl
  | cons a rest ih =>
    rintro ⟨l, hl, hbad⟩
    rcases List.mem_cons.1 hl with rfl | hl2
    · have hnone : processLine tigs l = none := (processLine_none_iff tigs l).2 hbad
      simp [processFile, hnone]
    · rcases hsome : processLine tigs a with _ | out
      · simp [processFile, hsome]
      · have hr := ih ⟨l, hl2, hbad⟩
        simp [processFile, hsome, hr]

/-- processLine only consults the contig list through membership. -/
theorem processLine_congr (t1 t2 : List Str) (hmem : ∀ x : Str, x ∈ t1 ↔ x ∈ t2)
    (line : Str) : processLine t1 line = processLine t2 line := by
  rcases h3 : (pySplit (rstrip line))[3]? with _ | f3
  · simp [processLine, h3]
  · by_cases hm : f3 ∈ t1
    · have hm2 : f3 ∈ t2 := (hmem f3).1 hm
      simp [processLine, h3, hm, hm2]
    · have hm2 : f3 ∉ t2 := fun h => hm ((hmem f3).2 h)
      simp [processLine, h3, hm, hm2]

/-- pyReplace with the two colour tokens of the script, unfolded to its
worker with the scan bound it actually passes. -/
theorem pyReplace_vvlgrey (s : Str) :
    pyReplace vvlgrey red s =
      replaceGo 'v' ['v', 'l', 'g', 'r', 'e', 'y'] red s.length s := rfl

/-- Replacing vvlgrey by red preserves the field structure seen by
countAux: neither token contains whitespace. -/
theorem countAux_replaceGo :
    ∀ (fuel : Nat) (s : Str) (b : Bool), s.length ≤ fuel →
      countAux (replaceGo 'v' ['v', 'l', 'g', 'r', 'e', 'y'] red fuel s) b =
        countAux s b := by
  intro fuel
  induction fuel with
  | zero =>
    intro s b hs
    have hnil : s = [] := List.length_eq_zero.1 (Nat.le_zero.1 hs)
    subst hnil
    rfl
  | succ fuel ih =>
    intro s b hs
    cases s with
    | nil => rfl
    | cons c rest =>
      by_cases hp : ('v' :: ['v', 'l', 'g', 'r', 'e', 'y']).isPrefixOf (c :: rest) = true
      · have hdec : ('v' :: 'v' :: 'l' :: 'g' :: 'r' :: 'e' :: 'y' :: []) ++ rest.drop 6
            = c :: rest := by
          have h0 := append_drop_of_isPrefixOf _ _ hp
          simpa using h0
        have hlen : (rest.drop 6).length ≤ fuel := by
          have hd := List.length_drop 6 rest
          simp only [List.length_cons] at hs
          omega
        have hstep : replaceGo 'v' ['v', 'l', 'g', 'r', 'e', 'y'] red (fuel + 1) (c :: rest) =
            red ++ replaceGo 'v' ['v', 'l', 'g', 'r', 'e', 'y'] red fuel (rest.drop 6) := by
          simp [replaceGo, hp]
        rw [hstep, ← hdec]
        have hred : ∀ (X : Str) (b2 : Bool), countAux (red ++ X) b2 = countAux X true := by
          intro X b2
          simp +decide [red, countAux]
        have hvv : ∀ (X : Str) (b2 : Bool),
            countAux (('v' :: 'v' :: 'l' :: 'g' :: 'r' :: 'e' :: 'y' :: []) ++ X) b2 =
              countAux X true := by
          intro X b2
          simp +decide [countAux]
        rw [hred, hvv]
        exact ih (rest.drop 6) true hlen
      · have hstep : replaceGo 'v' ['v', 'l', 'g', 'r', 'e', 'y'] red (fuel + 1) (c :: rest) =
            c :: replaceGo 'v' ['v', 'l', 'g', 'r', 'e', 'y'] red fuel rest := by
          simp [replaceGo, hp]
        rw [hstep]
        have hlen : rest.length ≤ fuel := by
          simp only [List.length_cons] at hs
          omega
        by_cases hc : isPySpace c = true
        · simp [countAux, hc, ih rest false hlen]
        · simp [countAux, hc, ih rest true hlen]

/-- If a suffix of vvlgrey is a prefix of the replaced string then it
already was a prefix of the original string: the inserted red token
never completes an occurrence of vvlgrey, because no nonempty suffix of
vvlgrey is a prefix of red followed by anything. -/
theorem suffix_isPrefixOf_replaceGo :
    ∀ (fuel : Nat) (t w : Str), t.length ≤ fuel → w <:+ vvlgrey →
      w.isPrefixOf (replaceGo 'v' ['v', 'l', 'g', 'r', 'e', 'y'] red fuel t) = true →
      w.isPrefixOf t = true := by
  intro fuel
  induction fuel with
  | zero =>
    intro t w ht _ hw
    have hnil : t = [] := List.length_eq_zero.1 (Nat.le_zero.1 ht)
    subst hnil
    have hwnil : w = [] := (isPrefixOf_nil_iff w).1 hw
    subst hwnil
    rfl
  | succ fuel ih =>
    intro t w ht hsuf hw
    cases t with
    | nil =>
      have hwnil : w = [] := (isPrefixOf_nil_iff w).1 hw
      subst hwnil
      rfl
    | cons c rest =>
      by_cases hp : ('v' :: ['v', 'l', 'g', 'r', 'e', 'y']).isPrefixOf (c :: rest) = true
      · have hw2 : w.isPrefixOf
            (red ++ replaceGo 'v' ['v', 'l', 'g', 'r', 'e', 'y'] red fuel
              (rest.drop 6)) = true := by
          have hstep : replaceGo 'v' ['v', 'l', 'g', 'r', 'e', 'y'] red (fuel + 1) (c :: rest) =
              red ++ replaceGo 'v' ['v', 'l', 'g', 'r', 'e', 'y'] red fuel (rest.drop 6) := by
            simp [replaceGo, hp]
          rw [hstep] at hw
          exact hw
        have hmem : w ∈ vvlgrey.tails := (List.mem_tails w vvlgrey).2 hsuf
        simp [vvlgrey, List.tails] at hmem
        rcases hmem with rfl | rfl | rfl | rfl | rfl | rfl | rfl | rfl
        · simp +decide [red, List.isPrefixOf] at hw2
        · simp +decide [red, List.isPrefixOf] at hw2
        · simp +decide [red, List.isPrefixOf] at hw2
        · simp +decide [red, List.isPrefixOf] at hw2
        · simp +decide [red, List.isPrefixOf] at hw2
        · simp +decide [red, List.isPrefixOf] at hw2
        · simp +decide [red, List.isPrefixOf] at hw2
        · rfl
      · have hw2 : w.isPrefixOf
            (c :: replaceGo 'v' ['v', 'l', 'g', 'r', 'e', 'y'] red fuel rest) = true := by
          have hstep : replaceGo 'v' ['v', 'l', 'g', 'r', 'e', 'y'] red (fuel + 1) (c :: rest) =
              c :: replaceGo 'v' ['v', 'l', 'g', 'r', 'e', 'y'] red fuel rest := by
            simp [replaceGo, hp]
          rw [hstep] at hw
          exact hw
        cases w with
        | nil => rfl
        | cons a w2 =>
          simp only [List.isPrefixOf, Bool.and_eq_true, beq_iff_eq] at hw2
          obtain ⟨rfl, hw3⟩ := hw2
          have hsuf2 : w2 <:+ vvlgrey := (List.suffix_cons a w2).trans hsuf
          have hlen : rest.length ≤ fuel := by
            simp only [List.length_cons] at ht
            omega
          have hres := ih rest w2 hlen hsuf2 hw3
          simp [List.isPrefixOf, hres]

/-- After one pass of the replacement, vvlgrey no longer occurs
anywhere in the result. -/
theorem containsSub_replaceGo :
    ∀ (fuel : Nat) (t : Str), t.length ≤ fuel →
      containsSub vvlgrey (replaceGo 'v' ['v', 'l', 'g', 'r', 'e', 'y'] red fuel t) =
        false := by
  intro fuel
  induction fuel with
  | zero =>
    intro t ht
    have hnil : t = [] := List.length_eq_zero.1 (Nat.le_zero.1 ht)
    subst hnil
    rfl
  | succ fuel ih =>
    intro t ht
    cases t with
    | nil => rfl
    | cons c rest =>
      by_cases hp : ('v' :: ['v', 'l', 'g', 'r', 'e', 'y']).isPrefixOf (c :: rest) = true
      · have hstep : replaceGo 'v' ['v', 'l', 'g', 'r', 'e', 'y'] red (fuel + 1) (c :: rest) =
            red ++ replaceGo 'v' ['v', 'l', 'g', 'r', 'e', 'y'] red fuel (rest.drop 6) := by
          simp [replaceGo, hp]
        rw [hstep]
        have hlen : (rest.drop 6).length ≤ fuel := by
          have hd := List.length_drop 6 rest
          simp only [List.length_cons] at ht
          omega
        have hin := ih (rest.drop 6) hlen
        simp only [vvlgrey, red] at hin ⊢
        simp only [List.cons_append, List.nil_append, containsSub]
        simp +decide [List.isPrefixOf, hin]
      · have hstep : replaceGo 'v' ['v', 'l', 'g', 'r', 'e', 'y'] red (fuel + 1) (c :: rest) =
            c :: replaceGo 'v' ['v', 'l', 'g', 'r', 'e', 'y'] red fuel rest := by
          simp [replaceGo, hp]
        rw [hstep]
        have hlen : rest.length ≤ fuel := by
          simp only [List.length_cons] at ht
          omega
        have hin := ih rest hlen
        simp only [containsSub, Bool.or_eq_false_iff]
        constructor
        · by_contra hcon
          rw [Bool.not_eq_false] at hcon
          have h1 : ('v' == c) = true ∧
              (['v', 'l', 'g', 'r', 'e', 'y'] : Str).isPrefixOf
                (replaceGo 'v' ['v', 'l', 'g', 'r', 'e', 'y'] red fuel rest) = true := by
            simpa [vvlgrey, List.isPrefixOf] using hcon
          obtain ⟨hc1, h2⟩ := h1
          have hc2 : 'v' = c := beq_iff_eq.1 hc1
          subst hc2
          have hsuf : (['v', 'l', 'g', 'r', 'e', 'y'] : Str) <:+ vvlgrey := ⟨['v'], rfl⟩
          have h3 := suffix_isPrefixOf_replaceGo fuel rest _ hlen hsuf h2
          apply hp
          simp [List.isPrefixOf, h3]
        · exact hin

/-- The replacement scan is the identity on a string in which vvlgrey
does not occur. -/
theorem replaceGo_eq_self :
    ∀ (fuel : Nat) (s : Str), s.length ≤ fuel → containsSub vvlgrey s = false →
      replaceGo 'v' ['v', 'l', 'g', 'r', 'e', 'y'] red fuel s = s := by
  intro fuel
  induction fuel with
  | zero =>
    intro s hs _
    have hnil : s = [] := List.length_eq_zero.1 (Nat.le_zero.1 hs)
    subst hnil
    rfl
  | succ fuel ih =>
    intro s hs hc
    cases s with
    | nil => rfl
    | cons c rest =>
      have h1 : vvlgrey.isPrefixOf (c :: rest) = false ∧ containsSub vvlgrey rest = false := by
        simpa [containsSub, Bool.or_eq_false_iff] using hc
      obtain ⟨hpref2, hrest⟩ := h1
      have hlen : rest.length ≤ fuel := by
        simp only [List.length_cons] at hs
        omega
      have hstep : replaceGo 'v' ['v', 'l', 'g', 'r', 'e', 'y'] red (fuel + 1) (c :: rest) =
          c :: replaceGo 'v' ['v', 'l', 'g', 'r', 'e', 'y'] red fuel rest := by
        simp [replaceGo,
          show (('v' :: ['v', 'l', 'g', 'r', 'e', 'y'] : Str).isPrefixOf (c :: rest)) = false
            from hpref2]
      rw [hstep, ih rest hlen hrest]

/-- vvlgrey does not occur in the output of the replacement. -/
theorem containsSub_pyReplace (s : Str) :
    containsSub vvlgrey (pyReplace vvlgrey red s) = false := by
  rw [pyReplace_vvlgrey]
  exact containsSub_replaceGo s.length s le_rfl

/-- The replacement is the identity where vvlgrey does not occur. -/
theorem pyReplace_eq_self (s : Str) (h : containsSub vvlgrey s = false) :
    pyReplace vvlgrey red s = s := by
  rw [pyReplace_vvlgrey]
  exact replaceGo_eq_self s.length s le_rfl h

/-- Replacing vvlgrey by red preserves the field count of a line. -/
theorem countAux_pyReplace (s : Str) (b : Bool) :
    countAux (pyReplace vvlgrey red s) b = countAux s b := by
  rw [pyReplace_vvlgrey]
  exact countAux_replaceGo s.length s b le_rfl

/-- C1: for every input karyotype line having at least 4
whitespace-separated fields, if field index 3 (0-based, after splitting
the line on runs of whitespace) is a member of the contig-name set, the
line written to the output is the original line with every occurrence of
vvlgrey replaced by red (all other characters, including the line
terminator, preserved); otherwise the line written is byte-identical to
the input line. -/
theorem C1_line_rule (tigs : List Str) (line f3 : Str)
    (h : (pySplit line)[3]? = some f3) :
    processLine tigs line =
      some (if f3 ∈ tigs then pyReplace vvlgrey red line else line) := by
  have h2 : (pySplit (rstrip line))[3]? = some f3 := by
    rw [pySplit_rstrip]
    exact h
  simp only [processLine, h2]
  by_cases hm : f3 ∈ tigs
  · simp [hm]
  · simp [hm]

/-- Witness for C1 on a concrete line and contig set. -/
theorem C1_line_rule_witness :
    (pySplit exLine)[3]? = some exF3 ∧
    processLine [exF3] exLine =
      some (if exF3 ∈ [exF3] then pyReplace vvlgrey red exLine else exLine) :=
  ⟨by decide, C1_line_rule [exF3] exLine exF3 (by decide)⟩

/-- C2: for every input file in which every line has at least 4
whitespace-separated fields, the run does not abort, the output file has
exactly as many lines as the input file, one line per input line in
input order, and each output line is either identical to its input line
or is its input line with occurrences of vvlgrey replaced by red. -/
theorem C2_output_shape (tigs : List Str) (input : List Str)
    (h : ∀ l ∈ input, 4 ≤ (pySplit l).length) :
    (processFile tigs input).2 = false ∧
    (processFile tigs input).1.length = input.length ∧
    List.Forall₂ (fun a b => b = a ∨ b = pyReplace vvlgrey red a) input
      (processFile tigs input).1 := by
  have h2 : ∀ l ∈ input, 4 ≤ (pySplit (rstrip l)).length := by
    intro l hl
    rw [pySplit_rstrip]
    exact h l hl
  have hfile := processFile_of_all_good tigs input h2
  have h1 : (processFile tigs input).1 = input.map (transformLine tigs) := by
    rw [hfile]
  have hb : (processFile tigs input).2 = false := by
    rw [hfile]
  refine ⟨hb, ?_, ?_⟩
  · rw [h1, List.length_map]
  · rw [h1, List.forall₂_map_right_iff, List.forall₂_same]
    intro a _
    exact transformLine_cases tigs a

/-- Witness for C2 on a concrete one-line input file. -/
theorem C2_output_shape_witness :
    (∀ l ∈ [exLine], 4 ≤ (pySplit l).length) ∧
    ((processFile [exF3] [exLine]).2 = false ∧
     (processFile [exF3] [exLine]).1.length = [exLine].length ∧
     List.Forall₂ (fun a b => b = a ∨ b = pyReplace vvlgrey red a) [exLine]
       (processFile [exF3] [exLine]).1) :=
  ⟨by decide, C2_output_shape [exF3] [exLine] (by decide)⟩

/-- C3 counterexample: with the good-contigs file consisting of the
single line T-space-newline, field 3 of exLine is T and the replacement
is applied (the written line differs from the input line), yet no line
of the contig-name file equals T after only its trailing newline is
stripped: the code strips all trailing whitespace, not just the
newline. -/
theorem C3_counterexample :
    (pySplit (rstrip exLine))[3]? = some exF3 ∧
    (∀ l ∈ [exContigLine], specStripTrailingNewline l ≠ exF3) ∧
    processLine (loadTigs [exContigLine]) exLine ≠ some exLine ∧
    processLine (loadTigs [exContigLine]) exLine = some exLineRed := by
  decide

/-- C3 as amended: the colour replacement is applied to a line exactly
when its field index 3 equals some line of the contig-name file after
all trailing whitespace (not only the trailing newline) is stripped from
that line. -/
theorem C3_match_rule (goodContigs : List Str) (line f3 : Str)
    (h : (pySplit line)[3]? = some f3) :
    (processLine (loadTigs goodContigs) line = some (pyReplace vvlgrey red line) ∧
      ∃ l ∈ goodContigs, rstrip l = f3) ∨
    (processLine (loadTigs goodContigs) line = some line ∧
      ¬ ∃ l ∈ goodContigs, rstrip l = f3) := by
  have h2 : (pySplit (rstrip line))[3]? = some f3 := by
    rw [pySplit_rstrip]
    exact h
  by_cases hm : f3 ∈ loadTigs goodContigs
  · left
    constructor
    · simp [processLine, h2, hm]
    · simpa [loadTigs, List.mem_map] using hm
  · right
    constructor
    · simp [processLine, h2, hm]
    · intro hex
      apply hm
      rw [loadTigs, List.mem_map]
      obtain ⟨l, hl, hrs⟩ := hex
      exact ⟨l, hl, hrs⟩

/-- Witness for the amended C3 on a concrete line and contig file. -/
theorem C3_match_rule_witness :
    (pySplit exLine)[3]? = some exF3 ∧
    ((processLine (loadTigs [exContigLine]) exLine =
        some (pyReplace vvlgrey red exLine) ∧
      ∃ l ∈ [exContigLine], rstrip l = exF3) ∨
     (processLine (loadTigs [exContigLine]) exLine = some exLine ∧
      ¬ ∃ l ∈ [exContigLine], rstrip l = exF3)) :=
  ⟨by decide, C3_match_rule [exContigLine] exLine exF3 (by decide)⟩

/-- C4: the run fails with an open error when any of the three files
cannot be opened for its required mode; when all three open, it aborts
with an index error whenever some karyotype line has fewer than 4
whitespace-separated fields, and when every line has at least 4 fields
no error is raised and the input is traversed to completion, one output
line per input line. -/
theorem C4_failure_modes (karyo goodContigs : Option (List Str)) (outWritable : Bool) :
    ((karyo = none ∨ goodContigs = none ∨ outWritable = false) →
      runProgram karyo goodContigs outWritable = RunResult.openError) ∧
    (∀ ks gs : List Str, karyo = some ks → goodContigs = some gs → outWritable = true →
      ((∃ l ∈ ks, (pySplit l).length < 4) →
        runProgram karyo goodContigs outWritable =
          RunResult.indexError (processFile (loadTigs gs) ks).1) ∧
      ((∀ l ∈ ks, 4 ≤ (pySplit l).length) →
        runProgram karyo goodContigs outWritable =
          RunResult.ok (ks.map (transformLine (loadTigs gs))))) := by
  constructor
  · intro hcase
    rcases karyo with _ | ks <;> rcases goodContigs with _ | gs <;>
      rcases outWritable with _ | _
    all_goals first
      | rfl
      | (rcases hcase with h | h | h <;> simp_all)
  · rintro ks gs rfl rfl rfl
    constructor
    · intro hex
      have hbad : ∃ l ∈ ks, (pySplit (rstrip l)).length < 4 := by
        obtain ⟨l, hl, hless⟩ := hex
        exact ⟨l, hl, by rw [pySplit_rstrip]; exact hless⟩
      have herr := processFile_err_of_bad (loadTigs gs) ks hbad
      simp [runProgram, herr]
    · intro hall
      have hgood : ∀ l ∈ ks, 4 ≤ (pySplit (rstrip l)).length := by
        intro l hl
        rw [pySplit_rstrip]
        exact hall l hl
      have hfile := processFile_of_all_good (loadTigs gs) ks hgood
      simp [runProgram, hfile]

/-- Witness for C4: a missing input file, a malformed line, and a clean
run, all on concrete inputs. -/
theorem C4_failure_modes_witness :
    runProgram none (some []) true = RunResult.openError ∧
    ((∃ l ∈ [exLineShort], (pySplit l).length < 4) ∧
      runProgram (some [exLineShort]) (some []) true =
        RunResult.indexError (processFile (loadTigs []) [exLineShort]).1) ∧
    runProgram (some [exLine]) (some []) true =
      RunResult.ok ([exLine].map (transformLine (loadTigs []))) :=
  ⟨(C4_failure_modes none (some []) true).1 (Or.inl rfl),
   ⟨by decide,
    ((C4_failure_modes (some [exLineShort]) (some []) true).2 [exLineShort] []
      rfl rfl rfl).1 (by decide)⟩,
   ((C4_failure_modes (some [exLine]) (some []) true).2 [exLine] []
      rfl rfl rfl).2 (by decide)⟩

/-- C5: the replacement of vvlgrey by red is idempotent: applying it
twice to any string equals applying it once, so a second run of the
transform leaves already-recolored lines unchanged. -/
theorem C5_idempotent (s : Str) :
    pyReplace vvlgrey red (pyReplace vvlgrey red s) = pyReplace vvlgrey red s :=
  pyReplace_eq_self _ (containsSub_pyReplace s)

/-- C6 counterexample: for the good-contigs line T-space-newline, the
name the code stores is T (all trailing whitespace stripped by rstrip),
not T-space (the line with only its trailing newline stripped); the
newline-only-stripped name is not even a member of the stored list. -/
theorem C6_counterexample :
    loadTigs [exContigLine] ≠ [specStripTrailingNewline exContigLine] ∧
    specStripTrailingNewline exContigLine ∉ loadTigs [exContigLine] := by
  decide

/-- C6 as amended: for every line of the good-contigs file, the name
stored is that line with all trailing whitespace stripped (not only a
trailing newline), and membership holds exactly when field 3 equals the
stripped form of some line. -/
theorem C6_stored_names (goodContigs : List Str) :
    loadTigs goodContigs = goodContigs.map rstrip ∧
    ∀ f3 : Str, f3 ∈ loadTigs goodContigs ↔ ∃ l ∈ goodContigs, rstrip l = f3 := by
  refine ⟨rfl, ?_⟩
  intro f3
  simp [loadTigs, List.mem_map]

/-- C7: for every input line with at least 4 whitespace-separated
fields, the corresponding output line has the same number of
whitespace-separated fields as the input line. -/
theorem C7_field_count (tigs : List Str) (line out : Str)
    (_h4 : 4 ≤ (pySplit line).length)
    (h : processLine tigs line = some out) :
    (pySplit out).length = (pySplit line).length := by
  rcases h3 : (pySplit (rstrip line))[3]? with _ | f3
  · simp only [processLine, h3] at h
    exact Option.noConfusion h
  · simp only [processLine, h3] at h
    by_cases hm : f3 ∈ tigs
    · rw [if_pos hm, Option.some_inj] at h
      subst h
      rw [length_pySplit, length_pySplit, countAux_pyReplace]
    · rw [if_neg hm, Option.some_inj] at h
      subst h
      rfl

/-- Witness for C7 on a concrete recolored line. -/
theorem C7_field_count_witness :
    4 ≤ (pySplit exLine).length ∧
    processLine [exF3] exLine = some exLineRed ∧
    (pySplit exLineRed).length = (pySplit exLine).length :=
  ⟨by decide, by decide, C7_field_count [exF3] exLine exLineRed (by decide) (by decide)⟩

/-- C8: if the first karyotype line with fewer than 4 fields is at index
k, the run aborts at that line and the output file contains exactly the
transformed results of lines 0 through k-1, in input order, and nothing
else. -/
theorem C8_abort_prefix (tigs : List Str) :
    ∀ (input : List Str) (k : Nat) (hk : k < input.length),
      (∀ l ∈ input.take k, 4 ≤ (pySplit l).length) →
      (pySplit (input.get ⟨k, hk⟩)).length < 4 →
      processFile tigs input = ((input.take k).map (transformLine tigs), true) := by
  intro input
  induction input with
  | nil =>
    intro k hk
    simp at hk
  | cons a rest ih =>
    intro k hk hgood hbad
    cases k with
    | zero =>
      have hbad2 : (pySplit (rstrip a)).length < 4 := by
        rw [pySplit_rstrip]
        simpa using hbad
      have hnone : processLine tigs a = none := (processLine_none_iff tigs a).2 hbad2
      simp [processFile, hnone]
    | succ k =>
      have ha : 4 ≤ (pySplit (rstrip a)).length := by
        rw [pySplit_rstrip]
        exact hgood a (by simp [List.take_succ_cons])
      have hkr : k < rest.length := by
        simpa using hk
      have hgood2 : ∀ l ∈ rest.take k, 4 ≤ (pySplit l).length := by
        intro l hl
        exact hgood l (by simp [List.take_succ_cons, hl])
      have hbad2 : (pySplit (rest.get ⟨k, hkr⟩)).length < 4 := by
        simpa using hbad
      have hsome := processLine_eq_some tigs a ha
      have hr := ih k hkr hgood2 hbad2
      simp [processFile, hsome, hr, List.take_succ_cons]

/-- Witness for C8: a two-line input whose second line is malformed. -/
theorem C8_abort_prefix_witness :
    (∀ l ∈ [exLine, exLineShort].take 1, 4 ≤ (pySplit l).length) ∧
    processFile [exF3] [exLine, exLineShort] =
      (([exLine, exLineShort].take 1).map (transformLine [exF3]), true) :=
  ⟨by decide,
   C8_abort_prefix [exF3] [exLine, exLineShort] 1 (by decide) (by decide) (by decide)⟩

/-- C9: a blank line in the good-contigs file loads as the empty string
into the contig list, and such an entry can never cause a match, because
split never yields an empty field; prepending the loaded empty name to
any contig list leaves every processed line unchanged. -/
theorem C9_blank_contig (blank line : Str) (tigs : List Str)
    (hblank : ∀ c ∈ blank, isPySpace c = true) :
    rstrip blank = [] ∧
    processLine (rstrip blank :: tigs) line = processLine tigs line := by
  have hb : rstrip blank = [] := by
    rw [rstrip, List.reverse_eq_nil_iff, List.dropWhile_eq_nil_iff]
    intro x hx
    exact hblank x (List.mem_reverse.1 hx)
  refine ⟨hb, ?_⟩
  rw [hb]
  rcases h3 : (pySplit (rstrip line))[3]? with _ | f3
  · simp [processLine, h3]
  · have hne : f3 ≠ [] := pySplit_ne_nil (rstrip line) f3 (List.getElem?_mem h3)
    by_cases hm : f3 ∈ tigs
    · simp [processLine, h3, hm]
    · have hm2 : f3 ∉ (([] : Str) :: tigs) := by
        simp [hm, hne]
      simp [processLine, h3, hm, hm2]

/-- Witness for C9: a newline-only blank contig line. -/
theorem C9_blank_contig_witness :
    (∀ c ∈ [('\n' : Char)], isPySpace c = true) ∧
    (rstrip ['\n'] = [] ∧
     processLine (rstrip ['\n'] :: []) exLine = processLine [] exLine) :=
  ⟨by decide, C9_blank_contig ['\n'] exLine [] (by decide)⟩

/-- C10: the output depends on the good-contigs file only through the
set of its stripped lines: two files whose loaded name lists have the
same members (any order, any duplication) give byte-identical output on
the same karyotype input. -/
theorem C10_set_only (g1 g2 input : List Str)
    (h : ∀ x : Str, x ∈ loadTigs g1 ↔ x ∈ loadTigs g2) :
    processFile (loadTigs g1) input = processFile (loadTigs g2) input := by
  induction input with
  | nil => rfl
  | cons a rest ih =>
    have hline := processLine_congr (loadTigs g1) (loadTigs g2) h a
    rcases hv : processLine (loadTigs g2) a with _ | out
    · have hv1 : processLine (loadTigs g1) a = none := by
        rw [hline, hv]
      simp [processFile, hv1, hv]
    · have hv1 : processLine (loadTigs g1) a = some out := by
        rw [hline, hv]
      simp [processFile, hv1, hv, ih]

/-- Witness for C10: duplicated versus deduplicated contig files. -/
theorem C10_set_only_witness :
    (∀ x : Str, x ∈ loadTigs [exContigLineNL, exContigLineNL] ↔
      x ∈ loadTigs [exContigLine]) ∧
    processFile (loadTigs [exContigLineNL, exContigLineNL]) [exLine] =
      processFile (loadTigs [exContigLine]) [exLine] := by
  have hyp : ∀ x : Str, x ∈ loadTigs [exContigLineNL, exContigLineNL] ↔
      x ∈ loadTigs [exContigLine] := by
    have h1 : loadTigs [exContigLineNL, exContigLineNL] = [exF3, exF3] := by decide
    have h2 : loadTigs [exContigLine] = [exF3] := by decide
    intro x
    rw [h1, h2]
    simp
  exact ⟨hyp, C10_set_only _ _ _ hyp⟩
